import Mathlib

/-!
Verification development for the Quarry dependency-resolution and
build-graph engine (C sources under `pyrite/`).

Modelling conventions, applied uniformly:

* C byte strings (`char*` / `uint8_t*` buffers) are modelled as `List Nat`
  (one `Nat` per byte).  The helper `str` turns an ASCII/UTF-8 string
  literal into its byte list.  C strings cannot contain a NUL byte, and no
  value in this development does.
* Fixed-capacity limits of the C implementation (`MAX_DEPS = 256` entries,
  `MAX_NODES = 256`, 64-byte prefix buffers, bounded output buffers, the
  32-slot version-component array is kept) are capacity artifacts that the
  specification explicitly descopes (§9: replace fixed buffers with growable
  containers, removing `CapacityError`); except for the 32-component cap,
  which is kept, inputs are modelled unbounded.
* `int` arithmetic that cannot overflow on the modelled inputs is modelled
  as `Int`; `uint32_t` arithmetic in SHA-256 is modelled as `Nat` with
  explicit `% 4294967296`.
-/

namespace Quarry

/-- Byte strings: one `Nat` per byte. -/
abbrev Bytes := List Nat

/-- UTF-8 encoding of a single character (byte list). -/
def utf8Bytes (c : Char) : Bytes :=
  let n := c.toNat
  if n < 128 then [n]
  else if n < 2048 then [192 + n / 64, 128 + n % 64]
  else if n < 65536 then [224 + n / 4096, 128 + n / 64 % 64, 128 + n % 64]
  else [240 + n / 262144, 128 + n / 4096 % 64, 128 + n / 64 % 64, 128 + n % 64]

/-- Byte list of a string literal (UTF-8, ASCII in all uses below). -/
def str (s : String) : Bytes := s.data.flatMap utf8Bytes

/-- `strncmp(s, p, strlen p) == 0`: `s` starts with `p`. -/
def startsWithB (s p : Bytes) : Bool := p.isPrefixOf s

/-- C `isspace` on a byte (space, \t, \n, \v, \f, \r). -/
def isSpaceByte (b : Nat) : Bool := b == 32 || (decide (9 ≤ b) && decide (b ≤ 13))

/-- ASCII digit test on a byte. -/
def isDigitByte (b : Nat) : Bool := decide (48 ≤ b) && decide (b ≤ 57)

/-- Value of a run of ASCII digit bytes. -/
def digitsVal (ds : Bytes) : Nat := ds.foldl (fun acc d => acc * 10 + (d - 48)) 0

/-- C `atoi`: skip whitespace, optional sign, then the leading digit run
(0 when no digits).  Overflow is UB in C and not modelled. -/
def atoiC (s : Bytes) : Int :=
  let s1 := s.dropWhile isSpaceByte
  match s1 with
  | 45 :: rest => - (digitsVal (rest.takeWhile isDigitByte) : Int)
  | 43 :: rest => (digitsVal (rest.takeWhile isDigitByte) : Int)
  | _ => (digitsVal (s1.takeWhile isDigitByte) : Int)

/-! ## version.c -/

/-- Accumulator loop for `strtok(s, ".")`: maximal nonempty runs between
dots (consecutive, leading and trailing delimiters produce no token). -/
def strtokDot : Bytes → Bytes → List Bytes
  | [], cur => if cur = [] then [] else [cur.reverse]
  | b :: rest, cur =>
    if b = 46 then
      if cur = [] then strtokDot rest [] else cur.reverse :: strtokDot rest []
    else strtokDot rest (b :: cur)

/-- `strtok(s, ".")` token list, capped at the 32-slot parts array of
`version_compare_c`. -/
def tokensOf (s : Bytes) : List Bytes := (strtokDot s []).take 32

/-- The parsed numeric components of a version string. -/
def partsOf (s : Bytes) : List Int := (tokensOf s).map atoiC

/-- The comparison loop of `version_compare_c` once the first list is
exhausted: its missing components are treated as 0. -/
def cmpZero : List Int → Int
  | [] => 0
  | y :: ys => if 0 < y then -1 else if y < 0 then 1 else cmpZero ys

/-- The comparison loop of `version_compare_c`: componentwise, a component
absent in the shorter list is treated as 0. -/
def cmpParts : List Int → List Int → Int
  | [], ys => cmpZero ys
  | x :: xs, [] => if x < 0 then -1 else if 0 < x then 1 else cmpParts xs []
  | x :: xs, y :: ys => if x < y then -1 else if y < x then 1 else cmpParts xs ys

/-- `version_compare_c`: -1 / 0 / 1. -/
def versionCompare (a b : Bytes) : Int := cmpParts (partsOf a) (partsOf b)

/-- `trim_start`: skip spaces and tabs. -/
def trimStartC (s : Bytes) : Bytes := s.dropWhile (fun b => b == 32 || b == 9)

/-- `version_satisfies_c`. -/
def versionSatisfies (version constraint : Bytes) : Bool :=
  if constraint = str "*" then true
  else if startsWithB constraint (str ">=") then
    decide (0 ≤ versionCompare version (trimStartC (constraint.drop 2)))
  else if startsWithB constraint (str "~>") then
    let base := trimStartC (constraint.drop 2)
    let majorTok := base.takeWhile (· ≠ 46)
    if majorTok.length < base.length then
      -- a dot exists: prefix is the first component followed by "."
      startsWithB version (majorTok ++ [46])
    else
      startsWithB version base
  else version == constraint

/-- The latest-version scan shared by the branches of `version_select_c`:
first element seeds `latest`, later elements replace it when strictly
greater under `version_compare_c`. -/
def pickLatest : List Bytes → Option Bytes
  | [] => none
  | h :: t => some (t.foldl (fun latest v => if 0 < versionCompare v latest then v else latest) h)

/-- The filtering prefix the `~>` branch of `version_select_c` builds: up
to the second dot of the base when the base has two or more components,
the whole base when it has exactly... (first dot but no second), and
`none` when the base has no dot at all (in which case that branch of the C
returns null without filtering). -/
def pessimisticPre (constraint : Bytes) : Option Bytes :=
  let base := trimStartC (constraint.drop 2)
  let majorTok := base.takeWhile (· ≠ 46)
  if majorTok.length < base.length then
    let afterFirst := base.drop (majorTok.length + 1)
    let minorTok := afterFirst.takeWhile (· ≠ 46)
    some (if minorTok.length < afterFirst.length then majorTok ++ 46 :: minorTok else base)
  else none

/-- `version_select_c`, at the level of the parsed candidate list. -/
def versionSelect (constraint : Bytes) (candidates : List Bytes) : Option Bytes :=
  if constraint = str "*" then
    pickLatest candidates
  else if startsWithB constraint (str ">=") then
    let minV := trimStartC (constraint.drop 2)
    pickLatest (candidates.filter (fun v => decide (0 ≤ versionCompare v minV)))
  else if startsWithB constraint (str "~>") then
    match pessimisticPre constraint with
    | some pre => pickLatest (candidates.filter (fun v => startsWithB v pre))
    | none => none
  else if candidates.contains constraint then some constraint else none

/-- The per-candidate filter each branch of `version_select_c` applies
(stated separately so the selection theorem can quantify over it). -/
def selectMatches (constraint : Bytes) (v : Bytes) : Bool :=
  if constraint = str "*" then true
  else if startsWithB constraint (str ">=") then
    decide (0 ≤ versionCompare v (trimStartC (constraint.drop 2)))
  else if startsWithB constraint (str "~>") then
    match pessimisticPre constraint with
    | some pre => startsWithB v pre
    | none => false
  else v == constraint

/-! ## The flat dependency-entry struct (`DepEntry` in dep_fingerprint.c,
lockfile.c and locked_validate.c; empty byte string = field absent) -/

structure DepEntry where
  name : Bytes := []
  type : Bytes := []
  version : Bytes := []
  git_url : Bytes := []
  git_branch : Bytes := []
  commit : Bytes := []
  path : Bytes := []
  checksum : Bytes := []
  hash : Bytes := []
  deriving DecidableEq, Repr

/-- A `DepEntry` with every field empty (a freshly parsed slot). -/
def emptyDep : DepEntry := {}

/-! ## dep_fingerprint.c -/

/-- Lowercase one ASCII byte in the range `A`–`Z` (the `type` loop of
`normalize_dep_entry`). -/
def lowerByte (b : Nat) : Nat := if 65 ≤ b ∧ b ≤ 90 then b + 32 else b

/-- Lowercase one ASCII byte in the hex range `A`–`F` (the checksum/hash
loops of `normalize_dep_entry`). -/
def lowerHexByte (b : Nat) : Nat := if 65 ≤ b ∧ b ≤ 70 then b + 32 else b

/-- The checksum/hash normalization of `normalize_dep_entry`: nonempty
values beginning with the exact bytes `sha256:` have `A`–`F` lowered after
that prefix; every other value is untouched. -/
def normHashVal (v : Bytes) : Bytes :=
  if v = [] then v
  else if startsWithB v (str "sha256:") then v.take 7 ++ (v.drop 7).map lowerHexByte
  else v

/-- `normalize_dep_entry`. -/
def normalizeDepEntry (d : DepEntry) : DepEntry :=
  { d with
    type := d.type.map lowerByte
    checksum := normHashVal d.checksum
    hash := normHashVal d.hash }

/-- `serialize_dep_json`: canonical per-entry JSON with a fixed field order
per variant; empty fields are omitted. -/
def serializeDepJson (d : DepEntry) : Bytes :=
  str "\x7b\x22type\x22:\x22" ++ d.type ++ str "\x22" ++
  (if d.type = str "registry" then
    (if d.version ≠ [] then str ",\x22version\x22:\x22" ++ d.version ++ str "\x22" else []) ++
    (if d.checksum ≠ [] then str ",\x22checksum\x22:\x22" ++ d.checksum ++ str "\x22" else [])
  else if d.type = str "git" then
    (if d.git_url ≠ [] then str ",\x22git_url\x22:\x22" ++ d.git_url ++ str "\x22" else []) ++
    (if d.git_branch ≠ [] then str ",\x22git_branch\x22:\x22" ++ d.git_branch ++ str "\x22" else []) ++
    (if d.commit ≠ [] then str ",\x22commit\x22:\x22" ++ d.commit ++ str "\x22" else [])
  else if d.type = str "path" then
    (if d.path ≠ [] then str ",\x22path\x22:\x22" ++ d.path ++ str "\x22" else []) ++
    (if d.hash ≠ [] then str ",\x22hash\x22:\x22" ++ d.hash ++ str "\x22" else [])
  else []) ++ str "\x7d"

/-- `strcmp` on byte strings (no NUL bytes occur in modelled values). -/
def strcmpL : Bytes → Bytes → Int
  | [], [] => 0
  | [], _ :: _ => -1
  | _ :: _, [] => 1
  | a :: as, b :: bs => if a < b then -1 else if b < a then 1 else strcmpL as bs

/-- The `qsort`/`compare_deps` ordering: by name, `strcmp` order. -/
def byNameLe (d e : DepEntry) : Prop := strcmpL d.name e.name ≤ 0

instance : DecidableRel byNameLe :=
  fun d e => inferInstanceAs (Decidable (strcmpL d.name e.name ≤ 0))

/-- Sorting a dependency list by name.  `qsort` is unstable, but on the
distinct names required of a dependency set the sorted result is unique,
so any sort realizes it. -/
def sortByName (deps : List DepEntry) : List DepEntry := List.insertionSort byNameLe deps

/-- One `"name":{...}` item of the canonical serialization. -/
def entryJson (d : DepEntry) : Bytes := str "\x22" ++ d.name ++ str "\x22:" ++ serializeDepJson d

/-- `normalize_dependency_set_c`: normalize every entry, sort by name, and
serialize to the canonical JSON byte string. -/
def normalizeDependencySet (deps : List DepEntry) : Bytes :=
  str "\x7b" ++ (List.intercalate (str ",") ((sortByName (deps.map normalizeDepEntry)).map entryJson)) ++ str "\x7d"

/-! ### SHA-256 (the implementation embedded in dep_fingerprint.c),
on `Nat` with explicit reduction mod 2^32 -/

/-- 32-bit right rotation. -/
def rotr32 (x n : Nat) : Nat := ((x >>> n) ||| (x <<< (32 - n))) % 4294967296

/-- `CH(x,y,z) = (x & y) ^ (~x & z)` with a 32-bit complement. -/
def shaCh (x y z : Nat) : Nat := (x &&& y) ^^^ ((x ^^^ 4294967295) &&& z)

/-- `MAJ(x,y,z)`. -/
def shaMaj (x y z : Nat) : Nat := (x &&& y) ^^^ (x &&& z) ^^^ (y &&& z)

def shaEp0 (x : Nat) : Nat := rotr32 x 2 ^^^ rotr32 x 13 ^^^ rotr32 x 22
def shaEp1 (x : Nat) : Nat := rotr32 x 6 ^^^ rotr32 x 11 ^^^ rotr32 x 25
def shaSig0 (x : Nat) : Nat := rotr32 x 7 ^^^ rotr32 x 18 ^^^ (x >>> 3)
def shaSig1 (x : Nat) : Nat := rotr32 x 17 ^^^ rotr32 x 19 ^^^ (x >>> 10)

/-- The round-constant table embedded in dep_fingerprint.c, copied
byte-for-byte.  Note: entry 62 is `0xbef9a3f8`, whereas FIPS 180-4
SHA-256 uses `0xbef9a3f7`, so the digests this source produces are not
standard SHA-256; they are still deterministic 256-bit values, which is
all the frozen claims assert. -/
def kConst : List Nat :=
  [1116352408, 1899447441, 3049323471, 3921009573,
   961987163, 1508970993, 2453635748, 2870763221,
   3624381080, 310598401, 607225278, 1426881987,
   1925078388, 2162078206, 2614888103, 3248222580,
   3835390401, 4022224774, 264347078, 604807628,
   770255983, 1249150122, 1555081692, 1996064986,
   2554220882, 2821834349, 2952996808, 3210313671,
   3336571891, 3584528711, 113926993, 338241895,
   666307205, 773529912, 1294757372, 1396182291,
   1695183700, 1986661051, 2177026350, 2456956037,
   2730485921, 2820302411, 3259730800, 3345764771,
   3516065817, 3600352804, 4094571909, 275423344,
   430227734, 506948616, 659060556, 883997877,
   958139571, 1322822218, 1537002063, 1747873779,
   1955562222, 2024104815, 2227730452, 2361852424,
   2428436474, 2756734187, 3204031480, 3329325298]

/-- The eight working registers / hash words. -/
structure Sha256State where
  a : Nat
  b : Nat
  c : Nat
  d : Nat
  e : Nat
  f : Nat
  g : Nat
  h : Nat
  deriving Repr

/-- The SHA-256 initial hash value. -/
def shaInit : Sha256State :=
  ⟨1779033703, 3144134277, 1013904242, 2773480762,
   1359893119, 2600822924, 528734635, 1541459225⟩

/-- Extend a 16-word block by `k` schedule words
(`w[i] = SIG1(w[i-2]) + w[i-7] + SIG0(w[i-15]) + w[i-16]`). -/
def buildSchedule (w : List Nat) : Nat → List Nat
  | 0 => w
  | k + 1 =>
    let ws := buildSchedule w k
    let len := ws.length
    ws ++ [(shaSig1 (ws.getD (len - 2) 0) + ws.getD (len - 7) 0 +
            shaSig0 (ws.getD (len - 15) 0) + ws.getD (len - 16) 0) % 4294967296]

/-- Big-endian 32-bit words from a byte list. -/
def bytesToWords : Bytes → List Nat
  | b0 :: b1 :: b2 :: b3 :: rest => ((b0 <<< 24) ||| (b1 <<< 16) ||| (b2 <<< 8) ||| b3) :: bytesToWords rest
  | _ => []

/-- `sha256_transform` on one 64-byte block. -/
def shaTransform (st : Sha256State) (block : Bytes) : Sha256State :=
  let w := buildSchedule (bytesToWords block) 48
  let r := (kConst.zip w).foldl
    (fun (s : Sha256State) kw =>
      let t1 := (s.h + shaEp1 s.e + shaCh s.e s.f s.g + kw.1 + kw.2) % 4294967296
      let t2 := (shaEp0 s.a + shaMaj s.a s.b s.c) % 4294967296
      ⟨(t1 + t2) % 4294967296, s.a, s.b, s.c, (s.d + t1) % 4294967296, s.e, s.f, s.g⟩)
    st
  ⟨(st.a + r.a) % 4294967296, (st.b + r.b) % 4294967296, (st.c + r.c) % 4294967296,
   (st.d + r.d) % 4294967296, (st.e + r.e) % 4294967296, (st.f + r.f) % 4294967296,
   (st.g + r.g) % 4294967296, (st.h + r.h) % 4294967296⟩

/-- Split a byte list into 64-byte blocks (fuel bounds the block count). -/
def splitBlocks : Nat → Bytes → List Bytes
  | 0, _ => []
  | _, [] => []
  | fuel + 1, bs => bs.take 64 :: splitBlocks fuel (bs.drop 64)

/-- Big-endian 8-byte rendering of the bit length. -/
def lenBE8 (n : Nat) : Bytes :=
  [(n >>> 56) &&& 255, (n >>> 48) &&& 255, (n >>> 40) &&& 255, (n >>> 32) &&& 255,
   (n >>> 24) &&& 255, (n >>> 16) &&& 255, (n >>> 8) &&& 255, n &&& 255]

/-- Big-endian byte rendering of one hash word. -/
def wordBytes (w : Nat) : Bytes := [(w >>> 24) &&& 255, (w >>> 16) &&& 255, (w >>> 8) &&& 255, w &&& 255]

/-- Full SHA-256 of a byte string (init, pad with `0x80`, zeros and the
64-bit big-endian bit length, transform each block, emit 32 bytes). -/
def sha256 (msg : Bytes) : Bytes :=
  let padded := msg ++ 128 :: List.replicate ((119 - msg.length % 64) % 64) 0 ++ lenBE8 (msg.length * 8)
  let st := (splitBlocks padded.length padded).foldl shaTransform shaInit
  wordBytes st.a ++ wordBytes st.b ++ wordBytes st.c ++ wordBytes st.d ++
  wordBytes st.e ++ wordBytes st.f ++ wordBytes st.g ++ wordBytes st.h

/-- The lowercase hex digit bytes `0123456789abcdef`. -/
def hexDigits : Bytes := str "0123456789abcdef"

/-- `hex_chars[n & 0xf]`. -/
def toHexByte (n : Nat) : Nat := hexDigits.getD (n &&& 15) 48

/-- Lowercase hex rendering of a byte string. -/
def bytesToHex (bs : Bytes) : Bytes := bs.flatMap (fun b => [toHexByte (b >>> 4), toHexByte b])

/-- `compute_resolution_fingerprint_c`: hex SHA-256 of the canonical
normalized serialization. -/
def computeResolutionFingerprint (deps : List DepEntry) : Bytes :=
  bytesToHex (sha256 (normalizeDependencySet deps))

/-! ## lockfile.c -/

/-- One TOML line of `generate_lockfile_c` (entries with a type other than
registry/git/path are skipped). -/
def emitDep (d : DepEntry) : Bytes :=
  if d.type = str "registry" then
    if d.checksum ≠ [] then
      d.name ++ str " = \x7b version = \x22" ++ d.version ++ str "\x22, checksum = \x22" ++
        d.checksum ++ str "\x22 \x7d\n"
    else
      d.name ++ str " = \x22" ++ d.version ++ str "\x22\n"
  else if d.type = str "git" then
    d.name ++ str " = \x7b git = \x22" ++ d.git_url ++ str "\x22" ++
    (if d.git_branch ≠ [] then str ", branch = \x22" ++ d.git_branch ++ str "\x22" else []) ++
    (if d.commit ≠ [] then str ", commit = \x22" ++ d.commit ++ str "\x22" else []) ++
    str " \x7d\n"
  else if d.type = str "path" then
    d.name ++ str " = \x7b path = \x22" ++ d.path ++ str "\x22" ++
    (if d.hash ≠ [] then str ", hash = \x22" ++ d.hash ++ str "\x22" else []) ++
    str " \x7d\n"
  else []

/-- `generate_lockfile_c`: header plus one line per dependency, sorted by
name. -/
def generateLockfile (deps : List DepEntry) : Bytes :=
  str "[dependencies]\n" ++ (sortByName deps).flatMap emitDep

/-- `strstr`: the suffix of `hay` after the first occurrence of `needle`
(`none` when absent). -/
def afterSub (hay needle : Bytes) : Option Bytes :=
  match hay with
  | [] => if needle = [] then some [] else none
  | _ :: t => if startsWithB hay needle then some (hay.drop needle.length) else afterSub t needle

/-- `strstr(hay, needle) != NULL`. -/
def containsSub (hay needle : Bytes) : Bool := (afterSub hay needle).isSome

/-- Field extraction of `parse_toml_dependencies`: the bytes between the
first occurrence of `marker` and the next `"` (empty field when the marker
is absent). -/
def extractAfter (hay marker : Bytes) : Bytes :=
  ((afterSub hay marker).map (fun suffix => suffix.takeWhile (· ≠ 34))).getD []

/-- The character-level scanning loop of `parse_toml_dependencies`.  The
fuel is the remaining text length plus one; every iteration consumes at
least one byte, so the fuel never runs out. -/
def ptdLoop : Nat → Bytes → Bool → List DepEntry → List DepEntry
  | 0, _, _, acc => acc
  | fuel + 1, cs, inDep, acc =>
    if cs = [] then acc
    else if startsWithB cs (str "[dependencies]") then ptdLoop fuel (cs.drop 14) true acc
    else if inDep ∧ cs.headD 0 = 91 then acc
    else if inDep ∧ cs.headD 0 ≠ 10 ∧ cs.headD 0 ≠ 32 ∧ cs.headD 0 ≠ 9 then
      let nameTok := cs.takeWhile (fun b => b ≠ 32 ∧ b ≠ 61 ∧ b ≠ 10)
      if nameTok.length > 0 then
        let rest2 := (cs.drop nameTok.length).dropWhile (fun b => b = 32 ∨ b = 61 ∨ b = 9)
        if rest2.headD 0 = 34 then
          -- string value: name = "version"
          let vTok := (rest2.drop 1).takeWhile (· ≠ 34)
          let after := (rest2.drop 1).drop vTok.length
          if after.headD 0 = 34 then
            let entry := { emptyDep with
              name := nameTok
              version := vTok
              type := str "registry" }
            ptdLoop fuel (after.drop 1) true (acc ++ [entry])
          else acc
        else if rest2.headD 0 = 123 then
          -- inline table: classified by probing the remaining text
          let entry :=
            if containsSub rest2 (str "git") then
              { emptyDep with
                name := nameTok
                type := str "git"
                git_url := extractAfter rest2 (str "git = \x22") }
            else if containsSub rest2 (str "path") then
              { emptyDep with
                name := nameTok
                type := str "path"
                path := extractAfter rest2 (str "path = \x22") }
            else if containsSub rest2 (str "version") then
              { emptyDep with
                name := nameTok
                type := str "registry"
                version := extractAfter rest2 (str "version = \x22") }
            else { emptyDep with name := nameTok }
          ptdLoop fuel (rest2.drop 1) true (acc ++ [entry])
        else
          ptdLoop fuel (rest2.drop 1) true acc
      else
        ptdLoop fuel (cs.drop 1) true acc
    else
      ptdLoop fuel (cs.drop 1) inDep acc

/-- `parse_toml_dependencies` (the decoder of `read_lockfile_c`). -/
def parseTomlDependencies (text : Bytes) : List DepEntry :=
  ptdLoop (text.length + 1) text false []

/-! ## dep_source.c -/

/-- The manifest value handed to `parse_dependency_source_c`: a bare string
or an object; object fields are modelled with string values (the only kind
the C extracts — a non-string field value reads back as the empty
string). -/
inductive TomlValue where
  | strv (s : Bytes)
  | table (fields : List (Bytes × Bytes))
  deriving DecidableEq, Repr

/-- First field with the given key (`get_json_field` scans in order). -/
def lookupField (fields : List (Bytes × Bytes)) (key : Bytes) : Option Bytes :=
  (fields.find? (fun kv => decide (kv.1 = key))).map (·.2)

/-- Field value, empty when absent (the C leaves the buffer zeroed). -/
def fieldOrEmpty (fields : List (Bytes × Bytes)) (key : Bytes) : Bytes :=
  (lookupField fields key).getD []

/-- The normalized tagged output of `parse_dependency_source_c` (the JSON
shapes it emits; optional fields are present in the JSON iff nonempty). -/
inductive DependencySource where
  | registry (version : Bytes) (checksum : Option Bytes)
  | git (url : Bytes) (branch : Option Bytes) (commit : Option Bytes)
  | path (p : Bytes) (hash : Option Bytes)
  | invalid
  deriving DecidableEq, Repr

/-- `none` iff the buffer is empty (the `value[0]` checks of the C). -/
def optOfNonEmpty (v : Bytes) : Option Bytes := if v = [] then none else some v

/-- `parse_dependency_source_c`. -/
def parseDependencySource (_name : Bytes) (value : TomlValue) : DependencySource :=
  match value with
  | .table fields =>
    if (lookupField fields (str "git")).isSome then
      let branch := fieldOrEmpty fields (str "branch")
      let tag := fieldOrEmpty fields (str "tag")
      let rev := fieldOrEmpty fields (str "rev")
      let ref :=
        if branch ≠ [] then some branch
        else if tag ≠ [] then some tag
        else if rev ≠ [] then some rev
        else none
      .git (fieldOrEmpty fields (str "git")) ref (optOfNonEmpty (fieldOrEmpty fields (str "commit")))
    else if (lookupField fields (str "path")).isSome then
      .path (fieldOrEmpty fields (str "path")) (optOfNonEmpty (fieldOrEmpty fields (str "hash")))
    else if (lookupField fields (str "version")).isSome then
      .registry (fieldOrEmpty fields (str "version")) (optOfNonEmpty (fieldOrEmpty fields (str "checksum")))
    else .invalid
  | .strv s => .registry s none

/-! ## locked_validate.c -/

/-- The result JSON of `validate_locked_deps_c`. -/
structure ValidationResult where
  valid : Bool
  errors : List Bytes
  warnings : List Bytes
  deriving DecidableEq, Repr

/-- `find_dep`: first entry with the given name. -/
def findDep (deps : List DepEntry) (nm : Bytes) : Option DepEntry :=
  deps.find? (fun d => decide (d.name = nm))

def missingMsg (nm : Bytes) : Bytes :=
  str "Quarry.lock is outdated. Dependency '" ++ nm ++ str "' in Quarry.toml not found in lockfile."

def mismatchMsg (nm : Bytes) : Bytes :=
  str "Quarry.lock is outdated. Source type mismatch for '" ++ nm ++ str "'."

def extraMsg (nm : Bytes) : Bytes :=
  str "Quarry.lock contains '" ++ nm ++ str "' which is not in Quarry.toml"

/-- One iteration of the manifest loop of `validate_locked_deps_c`: a
manifest dependency missing from the lock appends a missing-dependency
error, one locked under a different type appends a type-mismatch error
(both clear the valid flag); a matching entry changes nothing. -/
def validateStep (lock : List DepEntry) (st : Bool × List Bytes) (d : DepEntry) :
    Bool × List Bytes :=
  match findDep lock d.name with
  | none => (false, st.2 ++ [missingMsg d.name])
  | some l => if d.type ≠ l.type then (false, st.2 ++ [mismatchMsg d.name]) else st

/-- One iteration of the lockfile loop: a lock dependency absent from the
manifest appends a warning. -/
def warnStep (toml : List DepEntry) (ws : List Bytes) (l : DepEntry) : List Bytes :=
  if (findDep toml l.name).isNone then ws ++ [extraMsg l.name] else ws

/-- `validate_locked_deps_c`: errors for manifest dependencies missing from
the lock or locked under a different type, warnings for lock extras. -/
def validateLockedDeps (toml lock : List DepEntry) : ValidationResult :=
  let st := toml.foldl (validateStep lock) (true, [])
  let warns := lock.foldl (warnStep toml) []
  { valid := st.1, errors := st.2, warnings := warns }

/-- The structural error `validate_locked_deps_c` records for one manifest
dependency, if any. -/
def structuralErrorOf (lock : List DepEntry) (d : DepEntry) : Option Bytes :=
  match findDep lock d.name with
  | none => some (missingMsg d.name)
  | some l => if d.type ≠ l.type then some (mismatchMsg d.name) else none

/-! ## build_graph.c -/

/-- A parsed edge map: keys in insertion order, each with its ordered
dependency-name list (the post-`parse_edges_json` `Graph` struct). -/
abbrev GraphC := List (Bytes × List Bytes)

/-- `find_node_index`: first key index with the given name. -/
def findNodeIdx : GraphC → Bytes → Option Nat
  | [], _ => none
  | nd :: rest, nm => if nd.1 = nm then some 0 else (findNodeIdx rest nm).map (· + 1)

/-- Dependency list of the node at an index. -/
def depsAt (g : GraphC) (i : Nat) : List Bytes := (g.getD i ([], [])).2

/-- Name of the node at an index. -/
def nodeName (g : GraphC) (i : Nat) : Bytes := (g.getD i ([], [])).1

/-- `has_cycle_dfs`: depth-first search with a recursion stack, threading
the persistent `visited` marks.  Dependencies that are not keys are
skipped.  The fuel bounds the recursion depth; a fresh node is marked
visited on entry, so depth never exceeds the node count and the initial
fuel `g.length + 1` never runs out. -/
def dfsVisit (g : GraphC) : Nat → Nat → (Nat → Bool) → (Nat → Bool) → Bool × (Nat → Bool)
  | 0, _, visited, _ => (false, visited)
  | fuel + 1, i, visited, recStack =>
    if recStack i then (true, visited)
    else if visited i then (false, visited)
    else
      let visited1 := Function.update visited i true
      let recStack1 := Function.update recStack i true
      (depsAt g i).foldl
        (fun acc d =>
          if acc.1 then acc
          else
            match findNodeIdx g d with
            | some j => dfsVisit g fuel j acc.2 recStack1
            | none => acc)
        (false, visited1)

/-- `has_cycle_c` (on the parsed graph): run the DFS from every
not-yet-visited node, stopping at the first cycle. -/
def hasCycleGraph (g : GraphC) : Bool :=
  ((List.range g.length).foldl
    (fun (acc : Bool × (Nat → Bool)) i =>
      if acc.1 then acc
      else if acc.2 i then acc
      else dfsVisit g (g.length + 1) i acc.2 (fun _ => false))
    (false, fun _ => false)).1

/-- The reverse-dependency list `reverse_deps[j]` of `topological_sort_c`:
for every node `i` in index order, one occurrence of `i` per dependency of
`i` that resolves to `j`. -/
def reverseDepsAt (g : GraphC) (j : Nat) : List Nat :=
  (List.range g.length).flatMap
    (fun i => List.replicate ((depsAt g i).countP (fun d => findNodeIdx g d == some j)) i)

/-- One decrement-and-maybe-enqueue step of Kahn's algorithm. -/
def kahnStep (st : (Nat → Int) × List Nat) (dep : Nat) : (Nat → Int) × List Nat :=
  let d := st.1 dep - 1
  let inDeg1 := Function.update st.1 dep d
  if d = 0 then (inDeg1, st.2 ++ [dep]) else (inDeg1, st.2)

/-- The main queue loop of `topological_sort_c`.  Each iteration dequeues
one node, appends it to the result, and decrements the in-degree of every
node that lists it as a dependency, enqueueing nodes that reach zero. -/
def kahnLoop (g : GraphC) : Nat → (Nat → Int) → List Nat → List Nat → List Nat
  | 0, _, _, res => res
  | fuel + 1, inDeg, queue, res =>
    match queue with
    | [] => res
    | current :: rest =>
      let st := (reverseDepsAt g current).foldl kahnStep (inDeg, rest)
      kahnLoop g fuel st.1 st.2 (res ++ [current])

/-- Total number of dependency occurrences (bounds the enqueue count). -/
def totalDeps (g : GraphC) : Nat := (g.map (fun nd => nd.2.length)).sum

/-- The initial in-degree map of `topological_sort_c`: a node's own
dependency count. -/
def initInDeg (g : GraphC) : Nat → Int := fun i => ((depsAt g i).length : Int)

/-- The initial ready queue: nodes with no dependencies, in index order. -/
def initQueue (g : GraphC) : List Nat :=
  (List.range g.length).filter (fun i => initInDeg g i == 0)

/-- The index order produced by the Kahn loop.  The fuel bounds the number
of dequeues; every node is enqueued at most once per time its counter hits
zero, so `g.length + totalDeps g + 1` dequeues are never exhausted. -/
def kahnResult (g : GraphC) : List Nat :=
  kahnLoop g (g.length + totalDeps g + 1) (initInDeg g) (initQueue g) []

/-- `topological_sort_c`: DFS cycle pre-check, then Kahn's algorithm with
in-degree = own dependency count; fails (`none`) when a cycle was found or
not every key node was output. -/
def topologicalSort (g : GraphC) : Option (List Bytes) :=
  if hasCycleGraph g then none
  else if (kahnResult g).length = g.length then some ((kahnResult g).map (nodeName g))
  else none

/-! ## Supporting lemmas: the comparison loops are total preorders -/

theorem cmpParts_self : ∀ as : List Int, cmpParts as as = 0 := by
  intro as
  induction as with
  | nil => rfl
  | cons x xs ih => simp [cmpParts, ih]

theorem cmpZero_neg : ∀ bs : List Int, cmpZero bs = -cmpParts bs [] := by
  intro bs
  induction bs with
  | nil => rfl
  | cons y ys ih =>
    simp only [cmpZero, cmpParts, ih]
    split_ifs <;> omega

theorem cmpParts_antisymm : ∀ as bs : List Int, cmpParts as bs = -cmpParts bs as := by
  intro as
  induction as with
  | nil =>
    intro bs
    simpa [cmpParts] using cmpZero_neg bs
  | cons x xs ih =>
    intro bs
    cases bs with
    | nil =>
      have h := cmpZero_neg (x :: xs)
      simp only [cmpParts] at h ⊢
      omega
    | cons y ys =>
      simp only [cmpParts, ih ys]
      split_ifs <;> omega

/-- Right-pad with zeros to length `n`. -/
def padTo (n : Nat) (l : List Int) : List Int := l ++ List.replicate (n - l.length) 0

theorem padTo_length (n : Nat) (l : List Int) (h : l.length ≤ n) : (padTo n l).length = n := by
  simp [padTo]
  omega

theorem padTo_succ_nil (n : Nat) : padTo (n + 1) [] = 0 :: padTo n [] := by
  simp [padTo, List.replicate_succ]

theorem padTo_succ_cons (n : Nat) (x : Int) (xs : List Int) :
    padTo (n + 1) (x :: xs) = x :: padTo n xs := by
  simp [padTo, Nat.succ_sub_succ]

theorem cmpParts_padTo : ∀ (n : Nat) (as bs : List Int),
    cmpParts (padTo n as) (padTo n bs) = cmpParts as bs := by
  intro n
  induction n with
  | zero => intro as bs; simp [padTo]
  | succ n ih =>
    intro as bs
    cases as with
    | nil =>
      cases bs with
      | nil =>
        rw [padTo_succ_nil]
        simpa [cmpParts] using ih [] []
      | cons y ys =>
        rw [padTo_succ_nil, padTo_succ_cons]
        simp only [cmpParts, cmpZero, ih []]
    | cons x xs =>
      cases bs with
      | nil =>
        rw [padTo_succ_nil, padTo_succ_cons]
        have h2 : cmpParts xs [] = cmpParts (padTo n xs) (padTo n []) := (ih xs []).symm
        simp only [cmpParts]
        rw [← h2]
      | cons y ys =>
        rw [padTo_succ_cons, padTo_succ_cons]
        simp only [cmpParts, ih xs ys]

theorem cmpParts_trans_eqlen : ∀ (as bs cs : List Int),
    as.length = bs.length → bs.length = cs.length →
    cmpParts as bs ≤ 0 → cmpParts bs cs ≤ 0 → cmpParts as cs ≤ 0 := by
  intro as
  induction as with
  | nil =>
    intro bs cs hab hbc _ _
    have : cs = [] := List.eq_nil_of_length_eq_zero (by simp at hab hbc; omega)
    simp [this, cmpParts, cmpZero]
  | cons x xs ih =>
    intro bs cs hab hbc h1 h2
    cases bs with
    | nil => simp at hab
    | cons y ys =>
      cases cs with
      | nil => simp at hbc
      | cons z zs =>
        simp only [cmpParts] at h1 h2 ⊢
        simp only [List.length_cons, Nat.succ.injEq] at hab hbc
        by_cases hxy : x < y
        · by_cases hyz : y < z
          · simp [show x < z by omega]
          · split_ifs at h2 with h2a
            · omega
            · have hyz' : y = z := by omega
              simp [show x < z by omega]
        · by_cases hyx : y < x
          · simp [hxy, hyx] at h1
          · have hxy' : x = y := by omega
            subst hxy'
            split_ifs at h2 with h2a
            · simp [h2a]
            · omega
            · have hyz' : x = z := by omega
              subst hyz'
              simp only [lt_irrefl, if_false]
              exact ih ys zs hab hbc (by simpa [cmpParts, hxy, hyx] using h1) h2

theorem cmpParts_trans : ∀ as bs cs : List Int,
    cmpParts as bs ≤ 0 → cmpParts bs cs ≤ 0 → cmpParts as cs ≤ 0 := by
  intro as bs cs h1 h2
  set n := max as.length (max bs.length cs.length) with hn
  have ha : as.length ≤ n := le_max_left _ _
  have hb : bs.length ≤ n := le_trans (le_max_left _ _) (le_max_right _ _)
  have hc : cs.length ≤ n := le_trans (le_max_right _ _) (le_max_right _ _)
  rw [← cmpParts_padTo n as cs]
  refine cmpParts_trans_eqlen (padTo n as) (padTo n bs) (padTo n cs) ?_ ?_ ?_ ?_
  · rw [padTo_length _ _ ha, padTo_length _ _ hb]
  · rw [padTo_length _ _ hb, padTo_length _ _ hc]
  · rw [cmpParts_padTo]; exact h1
  · rw [cmpParts_padTo]; exact h2

theorem versionCompare_refl (a : Bytes) : versionCompare a a = 0 := cmpParts_self _

theorem versionCompare_antisymm (a b : Bytes) : versionCompare a b = -versionCompare b a :=
  cmpParts_antisymm _ _

theorem versionCompare_trans {a b c : Bytes}
    (h1 : versionCompare a b ≤ 0) (h2 : versionCompare b c ≤ 0) : versionCompare a c ≤ 0 :=
  cmpParts_trans _ _ _ h1 h2

/-! ## Supporting lemmas: the latest-version scan returns a maximal match -/

theorem foldl_pick_spec : ∀ (t : List Bytes) (a : Bytes),
    (t.foldl (fun latest v => if 0 < versionCompare v latest then v else latest) a = a ∨
     t.foldl (fun latest v => if 0 < versionCompare v latest then v else latest) a ∈ t) ∧
    ∀ w, (w = a ∨ w ∈ t) →
      versionCompare w (t.foldl (fun latest v => if 0 < versionCompare v latest then v else latest) a) ≤ 0 := by
  intro t
  induction t with
  | nil =>
    intro a
    refine ⟨Or.inl rfl, ?_⟩
    rintro w (rfl | hw)
    · simp [versionCompare_refl]
    · simp at hw
  | cons v t ih =>
    intro a
    simp only [List.foldl_cons]
    set a1 := if 0 < versionCompare v a then v else a with ha1
    have hstep : versionCompare a a1 ≤ 0 ∧ versionCompare v a1 ≤ 0 ∧ (a1 = v ∨ a1 = a) := by
      rw [ha1]
      split_ifs with h
      · refine ⟨?_, by simp [versionCompare_refl], Or.inl rfl⟩
        have := versionCompare_antisymm a v
        omega
      · exact ⟨by simp [versionCompare_refl], by omega, Or.inr rfl⟩
    obtain ⟨hmem, hdom⟩ := ih a1
    constructor
    · rcases hmem with h | h
      · rcases hstep.2.2 with h2 | h2
        · rw [h, h2]; exact Or.inr (List.mem_cons_self _ _)
        · rw [h, h2]; exact Or.inl rfl
      · exact Or.inr (List.mem_cons_of_mem _ h)
    · rintro w (rfl | hw)
      · exact versionCompare_trans hstep.1 (hdom _ (Or.inl rfl))
      · rcases List.mem_cons.mp hw with rfl | hw
        · exact versionCompare_trans hstep.2.1 (hdom _ (Or.inl rfl))
        · exact hdom _ (Or.inr hw)

theorem pickLatest_none_iff (l : List Bytes) : pickLatest l = none ↔ l = [] := by
  cases l <;> simp [pickLatest]

theorem pickLatest_spec (l : List Bytes) (v : Bytes) (h : pickLatest l = some v) :
    v ∈ l ∧ ∀ w ∈ l, versionCompare w v ≤ 0 := by
  cases l with
  | nil => simp [pickLatest] at h
  | cons a t =>
    simp only [pickLatest, Option.some.injEq] at h
    obtain ⟨hmem, hdom⟩ := foldl_pick_spec t a
    subst h
    constructor
    · rcases hmem with h | h
      · rw [h]; exact List.mem_cons_self _ _
      · exact List.mem_cons_of_mem _ h
    · intro w hw
      rcases List.mem_cons.mp hw with rfl | hw
      · exact hdom _ (Or.inl rfl)
      · exact hdom _ (Or.inr hw)

end Quarry

namespace Quarry

/-- C5 (amended): `version_select_c` returns `none` iff no candidate passes
the branch's own filter (`selectMatches`), and otherwise returns a
candidate that passes the filter and is maximal under `version_compare_c`.
The filter agrees with `version_satisfies_c` for `*`, `>=` and exact
constraints; for `~>` it keeps candidates starting with the prefix up to
the second dot of the base (no trailing dot), and a dotless `~>` base
matches nothing. -/
theorem versionSelect_characterization :
    ∀ (c : Bytes) (cands : List Bytes),
      (versionSelect c cands = none ↔ cands.filter (selectMatches c) = []) ∧
      (∀ v, versionSelect c cands = some v →
        v ∈ cands.filter (selectMatches c) ∧
        ∀ w ∈ cands.filter (selectMatches c), versionCompare w v ≤ 0) := by
  intro c cands
  by_cases h1 : c = str "*"
  · have hsm : selectMatches c = fun _ => true := funext fun v => by simp [selectMatches, h1]
    simp only [versionSelect, if_pos h1, hsm]
    rw [List.filter_true]
    exact ⟨pickLatest_none_iff cands, fun v hv => pickLatest_spec cands v hv⟩
  · by_cases h2 : startsWithB c (str ">=")
    · have hsm : selectMatches c =
          fun v => decide (0 ≤ versionCompare v (trimStartC (c.drop 2))) :=
        funext fun v => by simp only [selectMatches, if_neg h1, if_pos h2]
      simp only [versionSelect, if_neg h1, if_pos h2, hsm]
      exact ⟨pickLatest_none_iff _, fun v hv => pickLatest_spec _ v hv⟩
    · by_cases h3 : startsWithB c (str "~>")
      · cases hp : pessimisticPre c with
        | some pre =>
          have hsm : selectMatches c = fun v => startsWithB v pre :=
            funext fun v => by simp only [selectMatches, if_neg h1, if_neg h2, if_pos h3, hp]
          simp only [versionSelect, if_neg h1, if_neg h2, if_pos h3, hp, hsm]
          exact ⟨pickLatest_none_iff _, fun v hv => pickLatest_spec _ v hv⟩
        | none =>
          have hsm : selectMatches c = fun _ => false :=
            funext fun v => by simp only [selectMatches, if_neg h1, if_neg h2, if_pos h3, hp]
          simp only [versionSelect, if_neg h1, if_neg h2, if_pos h3, hp, hsm,
            List.filter_false]
          exact ⟨by simp, by simp⟩
      · have hsm : selectMatches c = fun v => v == c :=
          funext fun v => by simp only [selectMatches, if_neg h1, if_neg h2, if_neg h3]
        simp only [versionSelect, if_neg h1, if_neg h2, if_neg h3, hsm]
        by_cases hc : cands.contains c
        · have hcmem : c ∈ cands := by simpa using hc
          simp only [if_pos hc]
          constructor
          · constructor
            · intro h; exact absurd h (by simp)
            · intro h
              exfalso
              have hmem : c ∈ cands.filter (fun v => v == c) :=
                List.mem_filter.mpr ⟨hcmem, by simp⟩
              rw [h] at hmem
              simp at hmem
          · intro v hv
            obtain rfl : c = v := by injection hv
            refine ⟨List.mem_filter.mpr ⟨hcmem, by simp⟩, ?_⟩
            intro w hw
            have hwv : w = c := by simpa using (List.mem_filter.mp hw).2
            subst hwv
            simp [versionCompare_refl]
        · simp only [if_neg hc]
          constructor
          · refine ⟨fun _ => ?_, fun _ => by trivial⟩
            refine List.filter_eq_nil_iff.mpr ?_
            intro w hw hwc
            have hwc' : w = c := by simpa using hwc
            subst hwc'
            exact hc (List.elem_iff.mpr hw)
          · intro v hv; exact absurd hv (by simp)

end Quarry

namespace Quarry

/-! ## Supporting lemmas: `strcmp` name order and uniqueness of the
sorted form -/

theorem strcmpL_self : ∀ as : Bytes, strcmpL as as = 0 := by
  intro as
  induction as with
  | nil => rfl
  | cons a t ih => simp [strcmpL, ih]

theorem strcmpL_eq_zero_iff : ∀ as bs : Bytes, strcmpL as bs = 0 ↔ as = bs := by
  intro as
  induction as with
  | nil => intro bs; cases bs <;> simp [strcmpL]
  | cons a t ih =>
    intro bs
    cases bs with
    | nil => simp [strcmpL]
    | cons b u =>
      simp only [strcmpL]
      split_ifs with h1 h2
      · simp; omega
      · simp; omega
      · have hab : a = b := by omega
        simp [hab, ih u]

theorem strcmpL_antisymm : ∀ as bs : Bytes, strcmpL as bs = -strcmpL bs as := by
  intro as
  induction as with
  | nil => intro bs; cases bs <;> simp [strcmpL]
  | cons a t ih =>
    intro bs
    cases bs with
    | nil => simp [strcmpL]
    | cons b u =>
      simp only [strcmpL, ih u]
      split_ifs <;> omega

theorem strcmpL_trans_le : ∀ as bs cs : Bytes,
    strcmpL as bs ≤ 0 → strcmpL bs cs ≤ 0 → strcmpL as cs ≤ 0 := by
  intro as
  induction as with
  | nil => intro bs cs _ _; cases cs <;> simp [strcmpL]
  | cons a t ih =>
    intro bs cs h1 h2
    cases bs with
    | nil => simp [strcmpL] at h1
    | cons b u =>
      cases cs with
      | nil => simp [strcmpL] at h2
      | cons c v =>
        simp only [strcmpL] at h1 h2 ⊢
        by_cases hab : a < b
        · by_cases hbc : b < c
          · simp [show a < c by omega]
          · split_ifs at h2 with h2a
            · omega
            · simp [show a < c by omega]
        · by_cases hba : b < a
          · simp [hab, hba] at h1
          · have hab' : a = b := by omega
            subst hab'
            split_ifs at h2 with h2a h2b
            · simp [h2a]
            · omega
            · have hac : a = c := by omega
              subst hac
              simp only [lt_irrefl, if_false]
              exact ih u v (by simpa [strcmpL, hab, hba] using h1) h2

instance : IsTrans DepEntry byNameLe :=
  ⟨fun _ _ _ h1 h2 => strcmpL_trans_le _ _ _ h1 h2⟩

instance : IsTotal DepEntry byNameLe :=
  ⟨fun d e => by
    unfold byNameLe
    have h := strcmpL_antisymm d.name e.name
    omega⟩

theorem sortByName_sorted (l : List DepEntry) : (sortByName l).Sorted byNameLe :=
  List.sorted_insertionSort byNameLe l

theorem sortByName_perm (l : List DepEntry) : (sortByName l).Perm l :=
  List.perm_insertionSort byNameLe l

/-- Two name-sorted dependency lists that are permutations of each other
and have pairwise-distinct names are equal: the sorted form is unique. -/
theorem sorted_nodup_perm_eq : ∀ l1 l2 : List DepEntry,
    l1.Sorted byNameLe → l2.Sorted byNameLe →
    (l1.map (fun d => d.name)).Nodup → l1.Perm l2 → l1 = l2 := by
  intro l1
  induction l1 with
  | nil =>
    intro l2 _ _ _ h
    exact (h.symm.eq_nil).symm
  | cons a t1 ih =>
    intro l2 hs1 hs2 hn h
    cases l2 with
    | nil => exact absurd h.eq_nil (by simp)
    | cons b t2 =>
      by_cases hab : a = b
      · subst hab
        have ht := h.cons_inv
        have := ih t2 (List.sorted_cons.mp hs1).2 (List.sorted_cons.mp hs2).2
          (by simpa using (List.nodup_cons.mp (by simpa using hn)).2) ht
        rw [this]
      · exfalso
        have ha2 : a ∈ t2 := by
          have : a ∈ b :: t2 := h.subset (List.mem_cons_self a t1)
          rcases List.mem_cons.mp this with h' | h'
          · exact absurd h' hab
          · exact h'
        have hb1 : b ∈ t1 := by
          have : b ∈ a :: t1 := h.symm.subset (List.mem_cons_self b t2)
          rcases List.mem_cons.mp this with h' | h'
          · exact absurd h'.symm hab
          · exact h'
        have hle1 : byNameLe a b := (List.sorted_cons.mp hs1).1 b hb1
        have hle2 : byNameLe b a := (List.sorted_cons.mp hs2).1 a ha2
        have hnames : a.name = b.name := by
          have hanti := strcmpL_antisymm a.name b.name
          unfold byNameLe at hle1 hle2
          exact (strcmpL_eq_zero_iff a.name b.name).mp (by omega)
        have : a.name ∈ t1.map (fun d => d.name) := by
          rw [hnames]
          exact List.mem_map_of_mem _ hb1
        exact (List.nodup_cons.mp (by simpa using hn)).1 this

/-- `normalize_dep_entry` does not change the name. -/
theorem normalizeDepEntry_name (d : DepEntry) : (normalizeDepEntry d).name = d.name := rfl

theorem map_name_map_normalize (l : List DepEntry) :
    (l.map normalizeDepEntry).map (fun d => d.name) = l.map (fun d => d.name) := by
  induction l with
  | nil => rfl
  | cons d t ih => simp [ih, normalizeDepEntry_name]

/-- The canonical serialization is invariant under permuting the entry
list, provided names are distinct. -/
theorem normalizeDependencySet_perm (S1 S2 : List DepEntry)
    (h : S1.Perm S2) (hn : (S1.map (fun d => d.name)).Nodup) :
    normalizeDependencySet S1 = normalizeDependencySet S2 := by
  unfold normalizeDependencySet
  have hperm : (S1.map normalizeDepEntry).Perm (S2.map normalizeDepEntry) := h.map _
  have hsorteq : sortByName (S1.map normalizeDepEntry) = sortByName (S2.map normalizeDepEntry) := by
    refine sorted_nodup_perm_eq _ _ (sortByName_sorted _) (sortByName_sorted _) ?_ ?_
    · have hp : ((sortByName (S1.map normalizeDepEntry)).map (fun d => d.name)).Perm
          ((S1.map normalizeDepEntry).map (fun d => d.name)) := (sortByName_perm _).map _
      refine hp.nodup_iff.mpr ?_
      rw [map_name_map_normalize]
      exact hn
    · exact ((sortByName_perm _).trans hperm).trans (sortByName_perm _).symm
  rw [hsorteq]

end Quarry

namespace Quarry

/-! ## Supporting lemmas: fingerprint output format -/

theorem toHexByte_mem (n : Nat) : toHexByte n ∈ hexDigits := by
  unfold toHexByte
  have h : n &&& 15 < hexDigits.length :=
    lt_of_le_of_lt Nat.and_le_right (by decide)
  rw [List.getD_eq_getElem hexDigits 48 h]
  exact List.getElem_mem h

theorem bytesToHex_length (bs : Bytes) : (bytesToHex bs).length = 2 * bs.length := by
  induction bs with
  | nil => rfl
  | cons b t ih => simp [bytesToHex] at ih ⊢; omega

theorem mem_bytesToHex (bs : Bytes) (b : Nat) (h : b ∈ bytesToHex bs) : b ∈ hexDigits := by
  unfold bytesToHex at h
  obtain ⟨x, _, hx⟩ := List.mem_flatMap.mp h
  simp only [List.mem_cons, List.not_mem_nil, or_false] at hx
  rcases hx with h1 | h1 <;> (subst h1; exact toHexByte_mem _)

theorem sha256_length (msg : Bytes) : (sha256 msg).length = 32 := by
  simp [sha256, wordBytes]

theorem fingerprint_length (S : List DepEntry) :
    (computeResolutionFingerprint S).length = 64 := by
  unfold computeResolutionFingerprint
  rw [bytesToHex_length, sha256_length]

/-! ## Supporting lemmas: normalization is idempotent -/

theorem lowerByte_idem (b : Nat) : lowerByte (lowerByte b) = lowerByte b := by
  unfold lowerByte
  split_ifs <;> omega

theorem lowerHexByte_idem (b : Nat) : lowerHexByte (lowerHexByte b) = lowerHexByte b := by
  unfold lowerHexByte
  split_ifs <;> omega

theorem strBytes_sha256_length : (str "sha256:").length = 7 := by decide

theorem normHashVal_sha256_append (t : Bytes) :
    normHashVal (str "sha256:" ++ t) = str "sha256:" ++ t.map lowerHexByte := by
  unfold normHashVal
  have hne : str "sha256:" ++ t ≠ [] :=
    List.append_ne_nil_of_left_ne_nil (by decide) t
  have hpre : startsWithB (str "sha256:" ++ t) (str "sha256:") = true :=
    List.isPrefixOf_iff_prefix.mpr ⟨t, rfl⟩
  rw [if_neg hne, if_pos hpre, List.take_left' strBytes_sha256_length,
    List.drop_left' strBytes_sha256_length]

theorem normHashVal_not_sha256 (v : Bytes) (h : startsWithB v (str "sha256:") = false) :
    normHashVal v = v := by
  unfold normHashVal
  split_ifs with h1 h2
  · rfl
  · rw [h] at h2; exact absurd h2 (by simp)
  · rfl

theorem normHashVal_idem (v : Bytes) : normHashVal (normHashVal v) = normHashVal v := by
  by_cases hp : startsWithB v (str "sha256:") = true
  · obtain ⟨t, rfl⟩ := List.isPrefixOf_iff_prefix.mp hp
    rw [normHashVal_sha256_append, normHashVal_sha256_append, List.map_map]
    congr 1
    exact List.map_congr_left (fun b _ => lowerHexByte_idem b)
  · rw [normHashVal_not_sha256 v (by simpa using hp),
      normHashVal_not_sha256 v (by simpa using hp)]

theorem normalizeDepEntry_idem (d : DepEntry) :
    normalizeDepEntry (normalizeDepEntry d) = normalizeDepEntry d := by
  cases d with
  | mk n t v gu gb cm p cs hs =>
    simp only [normalizeDepEntry, List.map_map, normHashVal_idem, DepEntry.mk.injEq,
      and_true, true_and]
    exact List.map_congr_left (fun b _ => lowerByte_idem b)

theorem normalizeDependencySet_normalize (S : List DepEntry) :
    normalizeDependencySet (S.map normalizeDepEntry) = normalizeDependencySet S := by
  unfold normalizeDependencySet
  rw [List.map_map]
  have h : List.map (normalizeDepEntry ∘ normalizeDepEntry) S = List.map normalizeDepEntry S :=
    List.map_congr_left (fun d _ => normalizeDepEntry_idem d)
  rw [h]

end Quarry

namespace Quarry

/-! ## Supporting definitions and lemmas: correctness of the Kahn loop -/

/-- Number of dependency slots of node `i` not yet discharged: dependencies
that are not keys, or whose key index has not been output yet. -/
def remaining (g : GraphC) (i : Nat) (res : List Nat) : Nat :=
  ((depsAt g i).filter (fun d =>
    match findNodeIdx g d with
    | none => true
    | some j => decide (j ∉ res))).length

/-- Every node of the index list is preceded by all of its resolvable
dependencies. -/
def orderOK (g : GraphC) (res : List Nat) : Prop :=
  ∀ (k : Nat) (hk : k < res.length), ∀ d ∈ depsAt g (res.get ⟨k, hk⟩),
    ∃ j, findNodeIdx g d = some j ∧ j ∈ res.take k

theorem filter_length_mono {α : Type} (l : List α) (p q : α → Bool)
    (h : ∀ a ∈ l, p a = true → q a = true) :
    (l.filter p).length ≤ (l.filter q).length := by
  induction l with
  | nil => simp
  | cons a t ih =>
    have ih' := ih (fun x hx => h x (List.mem_cons_of_mem a hx))
    by_cases hp : p a = true
    · rw [List.filter_cons_of_pos hp, List.filter_cons_of_pos (h a (List.mem_cons_self a t) hp)]
      simpa using ih'
    · rw [List.filter_cons_of_neg (by simpa using hp)]
      rcases hq : q a with hq' | hq'
      · rw [List.filter_cons_of_neg (by simp [hq])]
        exact ih'
      · rw [List.filter_cons_of_pos (by simp [hq])]
        exact le_trans ih' (by simp)

theorem remaining_nil (g : GraphC) (i : Nat) :
    remaining g i [] = (depsAt g i).length := by
  unfold remaining
  rw [List.filter_eq_self.mpr]
  intro d _
  cases h : findNodeIdx g d <;> simp

theorem remaining_append_le (g : GraphC) (i : Nat) (res l2 : List Nat) :
    remaining g i (res ++ l2) ≤ remaining g i res := by
  unfold remaining
  refine filter_length_mono _ _ _ ?_
  intro d _
  cases h : findNodeIdx g d with
  | none => simp
  | some j =>
    simp only [decide_eq_true_eq]
    intro hj
    intro hmem
    exact hj (List.mem_append_left _ hmem)

theorem remaining_zero_resolved (g : GraphC) (i : Nat) (res : List Nat)
    (h : remaining g i res = 0) :
    ∀ d ∈ depsAt g i, ∃ j, findNodeIdx g d = some j ∧ j ∈ res := by
  intro d hd
  have hnil := List.length_eq_zero.mp h
  have hall := List.filter_eq_nil_iff.mp hnil d hd
  cases hj : findNodeIdx g d with
  | none => rw [hj] at hall; simp at hall
  | some j =>
    rw [hj] at hall
    simp only [decide_eq_true_eq] at hall
    exact ⟨j, rfl, by
      by_contra hmem
      exact hall (by simpa using hmem)⟩

theorem remaining_pos_of_unresolved (g : GraphC) (i : Nat) (res : List Nat)
    (d : Bytes) (hd : d ∈ depsAt g i) (j : Nat)
    (hj : findNodeIdx g d = some j) (hmem : j ∉ res) :
    0 < remaining g i res := by
  unfold remaining
  have : d ∈ (depsAt g i).filter (fun d =>
      match findNodeIdx g d with
      | none => true
      | some j => decide (j ∉ res)) := by
    refine List.mem_filter.mpr ⟨hd, ?_⟩
    rw [hj]
    simpa using hmem
  exact List.length_pos.mpr (List.ne_nil_of_mem this)

theorem filter_split_aux {α : Type} : ∀ (l : List α) (p1 p2 pc : α → Bool),
    (∀ a ∈ l, (p2 a = true → p1 a = true) ∧ (pc a = true ↔ (p1 a = true ∧ p2 a = false))) →
    (l.filter p1).length = (l.filter p2).length + l.countP pc := by
  intro l p1 p2 pc h
  induction l with
  | nil => simp
  | cons a t ih =>
    have ha := h a (List.mem_cons_self a t)
    have ih' := ih (fun x hx => h x (List.mem_cons_of_mem a hx))
    simp only [List.filter_cons, List.countP_cons]
    cases hp1 : p1 a <;> cases hp2 : p2 a <;> cases hpc : pc a
    · rw [if_neg (by decide), if_neg (by decide), if_neg (by decide)]
      omega
    · obtain ⟨h1, _⟩ := ha.2.mp hpc
      rw [hp1] at h1
      exact absurd h1 (by decide)
    · have h1 := ha.1 hp2
      rw [hp1] at h1
      exact absurd h1 (by decide)
    · have h1 := ha.1 hp2
      rw [hp1] at h1
      exact absurd h1 (by decide)
    · have h1 := ha.2.mpr ⟨hp1, hp2⟩
      rw [hpc] at h1
      exact absurd h1 (by decide)
    · rw [if_pos rfl, if_neg (by decide), if_pos rfl]
      simp only [List.length_cons]
      omega
    · rw [if_pos rfl, if_pos rfl, if_neg (by decide)]
      simp only [List.length_cons]
      omega
    · obtain ⟨_, h2⟩ := ha.2.mp hpc
      rw [hp2] at h2
      exact absurd h2 (by decide)

theorem remaining_split (g : GraphC) (i current : Nat) (res : List Nat)
    (hc : current ∉ res) :
    remaining g i res =
      remaining g i (res ++ [current]) +
        (depsAt g i).countP (fun d => findNodeIdx g d == some current) := by
  unfold remaining
  refine filter_split_aux (depsAt g i) _ _ _ ?_
  intro d _
  cases hj : findNodeIdx g d with
  | none => simp
  | some j =>
    by_cases hjc : j = current
    · subst hjc
      constructor
      · simp
      · constructor
        · intro _
          refine ⟨by simpa using hc, by simp⟩
        · intro _; simp
    · constructor
      · simp only [decide_eq_true_eq, List.mem_append]
        intro hni hmem
        exact hni (Or.inl hmem)
      · constructor
        · intro hb; exact absurd (by simpa using hb : j = current) hjc
        · rintro ⟨h1, h2⟩
          exfalso
          simp only [decide_eq_true_eq] at h1
          simp only [List.mem_append, decide_eq_false_iff_not, not_not] at h2
          rcases h2 with h2 | h2
          · exact h1 h2
          · exact hjc (by simpa using h2)

end Quarry

namespace Quarry

theorem count_flatMap_replicate (L : List Nat) (f : Nat → Nat) (j : Nat) :
    (L.flatMap (fun x => List.replicate (f x) x)).count j =
      ((L.filter (fun x => x == j)).map f).sum := by
  induction L with
  | nil => rfl
  | cons x t ih =>
    rw [List.flatMap_cons, List.count_append, ih, List.filter_cons]
    by_cases hx : x = j
    · subst hx
      rw [if_pos (by simp), List.map_cons, List.sum_cons, List.count_replicate]
      simp
    · rw [if_neg (by simpa using hx), List.count_replicate, if_neg (by simpa using hx)]
      simp

theorem range_filter_eq (n j : Nat) :
    (List.range n).filter (fun x => x == j) = if j < n then [j] else [] := by
  induction n with
  | zero => simp
  | succ n ih =>
    rw [List.range_succ, List.filter_append, ih]
    by_cases h1 : j < n
    · rw [if_pos h1, if_pos (by omega)]
      have : n ≠ j := by omega
      simp [this]
    · by_cases h2 : j = n
      · subst h2
        rw [if_neg h1, if_pos (by omega)]
        simp
      · rw [if_neg h1, if_neg (by omega)]
        have : n ≠ j := fun h => h2 h.symm
        simp [this]

theorem count_reverseDepsAt (g : GraphC) (current j : Nat) (hj : j < g.length) :
    (reverseDepsAt g current).count j =
      (depsAt g j).countP (fun d => findNodeIdx g d == some current) := by
  unfold reverseDepsAt
  rw [count_flatMap_replicate, range_filter_eq, if_pos hj]
  simp

theorem mem_reverseDepsAt (g : GraphC) (current j : Nat)
    (h : j ∈ reverseDepsAt g current) :
    j < g.length ∧ ∃ d ∈ depsAt g j, findNodeIdx g d = some current := by
  unfold reverseDepsAt at h
  obtain ⟨i, hi, hmem⟩ := List.mem_flatMap.mp h
  obtain ⟨hcnt, rfl⟩ := List.mem_replicate.mp hmem
  refine ⟨List.mem_range.mp hi, ?_⟩
  have hpos : 0 < (depsAt g j).countP (fun d => findNodeIdx g d == some current) := by omega
  obtain ⟨d, hd, hdp⟩ := List.countP_pos_iff.mp hpos
  exact ⟨d, hd, by simpa using hdp⟩

theorem findNodeIdx_some_name : ∀ (g : GraphC) (nm : Bytes) (j : Nat),
    findNodeIdx g nm = some j → j < g.length ∧ nodeName g j = nm := by
  intro g
  induction g with
  | nil => intro nm j h; simp [findNodeIdx] at h
  | cons nd rest ih =>
    intro nm j h
    unfold findNodeIdx at h
    split_ifs at h with hh
    · injection h with h
      subst h
      exact ⟨by simp, by simpa [nodeName] using hh⟩
    · obtain ⟨j', hj', rfl⟩ := Option.map_eq_some'.mp h
      obtain ⟨hlt, hname⟩ := ih nm j' hj'
      refine ⟨by simpa using Nat.succ_lt_succ hlt, ?_⟩
      simpa [nodeName, List.getD] using hname

theorem findNodeIdx_isSome_of_mem : ∀ (g : GraphC) (nm : Bytes),
    nm ∈ g.map Prod.fst → (findNodeIdx g nm).isSome := by
  intro g
  induction g with
  | nil => intro nm h; simp at h
  | cons nd rest ih =>
    intro nm h
    unfold findNodeIdx
    split_ifs with hh
    · rfl
    · rw [List.map_cons] at h
      rcases List.mem_cons.mp h with h' | h'
      · exact absurd h'.symm hh
      · have := ih nm h'
        cases hf : findNodeIdx rest nm with
        | none => rw [hf] at this; simp at this
        | some j => simp [hf]

theorem nodeName_inj (g : GraphC) (hn : (g.map Prod.fst).Nodup) :
    ∀ i j, i < g.length → j < g.length → nodeName g i = nodeName g j → i = j := by
  intro i j hi hj hname
  have hi' : i < (g.map Prod.fst).length := by simpa using hi
  have hj' : j < (g.map Prod.fst).length := by simpa using hj
  have h1 : nodeName g i = g[i].1 := by
    unfold nodeName
    rw [List.getD_eq_getElem g ([], []) hi]
  have h2 : nodeName g j = g[j].1 := by
    unfold nodeName
    rw [List.getD_eq_getElem g ([], []) hj]
  have hget : (g.map Prod.fst).get ⟨i, hi'⟩ = (g.map Prod.fst).get ⟨j, hj'⟩ := by
    rw [List.get_eq_getElem, List.get_eq_getElem, List.getElem_map, List.getElem_map]
    rw [← h1, ← h2]
    exact hname
  exact (List.Nodup.getElem_inj_iff hn).mp hget

theorem orderOK_append (g : GraphC) (res : List Nat) (current : Nat)
    (ho : orderOK g res)
    (hc : ∀ d ∈ depsAt g current, ∃ j, findNodeIdx g d = some j ∧ j ∈ res) :
    orderOK g (res ++ [current]) := by
  intro k hk d hd
  have hlen : (res ++ [current]).length = res.length + 1 := by simp
  by_cases hklt : k < res.length
  · have hget : (res ++ [current]).get ⟨k, hk⟩ = res.get ⟨k, hklt⟩ := by
      rw [List.get_eq_getElem, List.get_eq_getElem]
      exact List.getElem_append_left hklt
    rw [hget] at hd
    obtain ⟨j, hj1, hj2⟩ := ho k hklt d hd
    refine ⟨j, hj1, ?_⟩
    rw [List.take_append_of_le_length (by omega)]
    exact hj2
  · have hkeq : k = res.length := by omega
    subst hkeq
    have hget : (res ++ [current]).get ⟨res.length, hk⟩ = current := by
      rw [List.get_eq_getElem]
      rw [List.getElem_append_right (Nat.le_refl _)]
      simp
    rw [hget] at hd
    obtain ⟨j, hj1, hj2⟩ := hc d hd
    refine ⟨j, hj1, ?_⟩
    rw [List.take_left]
    exact hj2

end Quarry

namespace Quarry

/-- Invariant preserved by the dependent-decrement fold of one dequeue
step: counters track the remaining counts relative to the extended result
plus the pending decrements, and the queue holds exactly nodes with
counter zero. -/
theorem kahnFold_inv (g : GraphC) (res2 : List Nat) :
    ∀ (pending : List Nat) (inDeg : Nat → Int) (q : List Nat),
    (∀ j ∈ pending, j < g.length ∧ j ∉ res2) →
    (∀ i, i < g.length → inDeg i = (remaining g i res2 : Int) + (pending.count i : Int)) →
    q.Nodup →
    (∀ j ∈ q, j < g.length ∧ j ∉ res2 ∧ inDeg j = 0) →
    (∀ i, i < g.length →
      (pending.foldl kahnStep (inDeg, q)).1 i = (remaining g i res2 : Int)) ∧
    (pending.foldl kahnStep (inDeg, q)).2.Nodup ∧
    (∀ j ∈ (pending.foldl kahnStep (inDeg, q)).2,
      j < g.length ∧ j ∉ res2 ∧ (pending.foldl kahnStep (inDeg, q)).1 j = 0) := by
  intro pending
  induction pending with
  | nil =>
    intro inDeg q hpend hcount hqnd hqmem
    refine ⟨?_, hqnd, hqmem⟩
    intro i hi
    have := hcount i hi
    simpa using this
  | cons dep pending ih =>
    intro inDeg q hpend hcount hqnd hqmem
    obtain ⟨hdep_lt, hdep_nres⟩ := hpend dep (List.mem_cons_self dep pending)
    have hold : inDeg dep =
        (remaining g dep res2 : Int) + (pending.count dep : Int) + 1 := by
      have := hcount dep hdep_lt
      rw [List.count_cons_self] at this
      push_cast at this
      omega
    rw [List.foldl_cons]
    have hpend' : ∀ j ∈ pending, j < g.length ∧ j ∉ res2 :=
      fun j hj => hpend j (List.mem_cons_of_mem dep hj)
    set d : Int := inDeg dep - 1 with hd
    have hdval : d = (remaining g dep res2 : Int) + (pending.count dep : Int) := by omega
    have hupd : ∀ i, i < g.length →
        Function.update inDeg dep d i = (remaining g i res2 : Int) + (pending.count i : Int) := by
      intro i hi
      by_cases hieq : i = dep
      · subst hieq
        rw [Function.update_same]
        exact hdval
      · rw [Function.update_noteq hieq]
        have := hcount i hi
        rw [List.count_cons_of_ne hieq] at this
        exact this
    by_cases hde : d = 0
    · have hkstep : kahnStep (inDeg, q) dep = (Function.update inDeg dep d, q ++ [dep]) := by
        unfold kahnStep
        rw [if_pos hde]
      rw [hkstep]
      have hdepq : dep ∉ q := by
        intro hmem
        have h0 := (hqmem dep hmem).2.2
        rw [h0] at hold
        have h1 : (0 : Int) ≤ (remaining g dep res2 : Int) := Int.natCast_nonneg _
        have h2 : (0 : Int) ≤ (pending.count dep : Int) := Int.natCast_nonneg _
        omega
      refine ih (Function.update inDeg dep d) (q ++ [dep]) hpend' hupd ?_ ?_
      · rw [List.nodup_append]
        exact ⟨hqnd, List.nodup_singleton dep, by simpa using hdepq⟩
      · intro j hj
        rcases List.mem_append.mp hj with hj | hj
        · have hjd : j ≠ dep := fun h => hdepq (h ▸ hj)
          obtain ⟨h1, h2, h3⟩ := hqmem j hj
          exact ⟨h1, h2, by rw [Function.update_noteq hjd]; exact h3⟩
        · have hjd : j = dep := by simpa using hj
          subst hjd
          exact ⟨hdep_lt, hdep_nres, by rw [Function.update_same]; exact hde⟩
    · have hkstep : kahnStep (inDeg, q) dep = (Function.update inDeg dep d, q) := by
        unfold kahnStep
        rw [if_neg hde]
      rw [hkstep]
      refine ih (Function.update inDeg dep d) q hpend' hupd hqnd ?_
      intro j hj
      obtain ⟨h1, h2, h3⟩ := hqmem j hj
      have hjd : j ≠ dep := by
        intro h
        subst h
        rw [h3] at hold
        have h1' : (0 : Int) ≤ (remaining g j res2 : Int) := Int.natCast_nonneg _
        have h2' : (0 : Int) ≤ (pending.count j : Int) := Int.natCast_nonneg _
        omega
      exact ⟨h1, h2, by rw [Function.update_noteq hjd]; exact h3⟩

/-- The invariant of the Kahn queue loop. -/
def KInv (g : GraphC) (inDeg : Nat → Int) (queue res : List Nat) : Prop :=
  res.Nodup ∧ (∀ i ∈ res, i < g.length) ∧ (∀ i ∈ res, remaining g i res = 0) ∧
  orderOK g res ∧ queue.Nodup ∧
  (∀ j ∈ queue, j < g.length ∧ j ∉ res ∧ remaining g j res = 0) ∧
  (∀ i, i < g.length → inDeg i = (remaining g i res : Int))

theorem kahnLoop_inv (g : GraphC) : ∀ (fuel : Nat) (inDeg : Nat → Int) (queue res : List Nat),
    KInv g inDeg queue res →
    (kahnLoop g fuel inDeg queue res).Nodup ∧
    (∀ i ∈ kahnLoop g fuel inDeg queue res, i < g.length) ∧
    orderOK g (kahnLoop g fuel inDeg queue res) := by
  intro fuel
  induction fuel with
  | zero =>
    intro inDeg queue res h
    exact ⟨h.1, h.2.1, h.2.2.2.1⟩
  | succ fuel ih =>
    intro inDeg queue res h
    obtain ⟨hres_nd, hres_lt, hres_rem, hord, hq_nd, hq_mem, hcount⟩ := h
    cases queue with
    | nil => exact ⟨hres_nd, hres_lt, hord⟩
    | cons current rest =>
      obtain ⟨hcur_lt, hcur_nres, hcur_rem⟩ := hq_mem current (List.mem_cons_self current rest)
      have hstep : kahnLoop g (fuel + 1) inDeg (current :: rest) res =
          kahnLoop g fuel ((reverseDepsAt g current).foldl kahnStep (inDeg, rest)).1
            ((reverseDepsAt g current).foldl kahnStep (inDeg, rest)).2 (res ++ [current]) := rfl
      rw [hstep]
      -- preconditions of the fold lemma at the extended result
      have hpend : ∀ j ∈ reverseDepsAt g current, j < g.length ∧ j ∉ res ++ [current] := by
        intro j hj
        obtain ⟨hjlt, d, hd, hdidx⟩ := mem_reverseDepsAt g current j hj
        have hpos : 0 < remaining g j res :=
          remaining_pos_of_unresolved g j res d hd current hdidx hcur_nres
        refine ⟨hjlt, ?_⟩
        intro hmem
        rcases List.mem_append.mp hmem with hmem | hmem
        · exact absurd (hres_rem j hmem) (by omega)
        · have : j = current := by simpa using hmem
          subst this
          exact absurd hcur_rem (by omega)
      have hcount2 : ∀ i, i < g.length →
          inDeg i = (remaining g i (res ++ [current]) : Int) +
            ((reverseDepsAt g current).count i : Int) := by
        intro i hi
        rw [hcount i hi, count_reverseDepsAt g current i hi,
          remaining_split g i current res hcur_nres]
        push_cast
        ring
      have hrest_nd : rest.Nodup := (List.nodup_cons.mp hq_nd).2
      have hcur_nrest : current ∉ rest := (List.nodup_cons.mp hq_nd).1
      have hrest_mem : ∀ j ∈ rest, j < g.length ∧ j ∉ res ++ [current] ∧ inDeg j = 0 := by
        intro j hj
        obtain ⟨h1, h2, h3⟩ := hq_mem j (List.mem_cons_of_mem current hj)
        refine ⟨h1, ?_, ?_⟩
        · intro hmem
          rcases List.mem_append.mp hmem with hmem | hmem
          · exact h2 hmem
          · have : j = current := by simpa using hmem
            exact hcur_nrest (this ▸ hj)
        · rw [hcount j h1, h3]
          simp
      obtain ⟨hc2, hnd2, hmem2⟩ :=
        kahnFold_inv g (res ++ [current]) (reverseDepsAt g current) inDeg rest
          hpend hcount2 hrest_nd hrest_mem
      refine ih _ _ _ ?_
      refine ⟨?_, ?_, ?_, ?_, hnd2, ?_, hc2⟩
      · rw [List.nodup_append]
        exact ⟨hres_nd, List.nodup_singleton current, by simpa using hcur_nres⟩
      · intro i hi
        rcases List.mem_append.mp hi with hi | hi
        · exact hres_lt i hi
        · have : i = current := by simpa using hi
          exact this ▸ hcur_lt
      · intro i hi
        have hle := remaining_append_le g i res [current]
        rcases List.mem_append.mp hi with hi | hi
        · have := hres_rem i hi
          omega
        · have : i = current := by simpa using hi
          subst this
          omega
      · exact orderOK_append g res current hord (remaining_zero_resolved g current res hcur_rem)
      · intro j hj
        obtain ⟨h1, h2, h3⟩ := hmem2 j hj
        refine ⟨h1, h2, ?_⟩
        have := hc2 j h1
        rw [this] at h3
        exact_mod_cast h3

end Quarry

namespace Quarry

theorem map_nodeName_range (g : GraphC) :
    (List.range g.length).map (nodeName g) = g.map Prod.fst := by
  refine List.ext_getElem (by simp) ?_
  intro k h1 h2
  rw [List.getElem_map, List.getElem_range, List.getElem_map]
  unfold nodeName
  rw [List.getD_eq_getElem g ([], []) (by simpa using h2)]

theorem initial_KInv (g : GraphC) : KInv g (initInDeg g) (initQueue g) [] := by
  refine ⟨List.nodup_nil, by simp, by simp, ?_, ?_, ?_, ?_⟩
  · intro k hk
    simp at hk
  · exact (List.nodup_range _).filter _
  · intro j hj
    obtain ⟨hjr, hjp⟩ := List.mem_filter.mp hj
    have hjlt := List.mem_range.mp hjr
    refine ⟨hjlt, by simp, ?_⟩
    have hz : initInDeg g j = 0 := by simpa using hjp
    have hlenz : (depsAt g j).length = 0 := by
      unfold initInDeg at hz
      exact_mod_cast hz
    rw [remaining_nil, hlenz]
  · intro i _
    rw [remaining_nil]
    rfl

/-- Whenever `topological_sort_c` succeeds on an edge map with distinct
keys, the output lists every key exactly once (it is a permutation of the
key list) and every node comes after all of its key dependencies. -/
theorem topologicalSort_some_spec (g : GraphC) (order : List Bytes)
    (hn : (g.map Prod.fst).Nodup) (hsort : topologicalSort g = some order) :
    order.Perm (g.map Prod.fst) ∧
    (∀ pre x post, order = pre ++ x :: post →
      ∀ ps, (x, ps) ∈ g → ∀ d ∈ ps, d ∈ g.map Prod.fst → d ∈ pre) := by
  unfold topologicalSort at hsort
  split_ifs at hsort with hcyc hlen
  · have horder : (kahnResult g).map (nodeName g) = order := by injection hsort
    have hinv := kahnLoop_inv g (g.length + totalDeps g + 1)
      (initInDeg g) (initQueue g) [] (initial_KInv g)
    have hnd : (kahnResult g).Nodup := hinv.1
    have hbound : ∀ i ∈ kahnResult g, i < g.length := hinv.2.1
    have hord : orderOK g (kahnResult g) := hinv.2.2
    have hperm_range : (kahnResult g).Perm (List.range g.length) := by
      refine (List.subperm_of_subset hnd ?_).perm_of_length_le ?_
      · intro i hi
        exact List.mem_range.mpr (hbound i hi)
      · rw [List.length_range]
        omega
    constructor
    · rw [← horder, ← map_nodeName_range g]
      exact hperm_range.map (nodeName g)
    · intro pre x post horder2 ps hps d hd hdkey
      subst horder2
      have hklt : pre.length < (kahnResult g).length := by
        have h0 : (List.map (nodeName g) (kahnResult g)).length = (pre ++ x :: post).length := by
          rw [horder]
        simp at h0
        omega
      have hx : (pre ++ x :: post).get? pre.length = some x := by
        rw [List.get?_append_right (Nat.le_refl _)]
        simp
      have hmap : (List.map (nodeName g) (kahnResult g)).get? pre.length =
          some (nodeName g ((kahnResult g).get ⟨pre.length, hklt⟩)) := by
        rw [List.get?_map, List.get?_eq_get hklt]
        rfl
      have hname_idx : nodeName g ((kahnResult g).get ⟨pre.length, hklt⟩) = x := by
        have hchain := hmap.symm.trans ((congrArg (fun l => l.get? pre.length) horder).trans hx)
        injection hchain
      have hidx_lt : (kahnResult g).get ⟨pre.length, hklt⟩ < g.length :=
        hbound _ (List.get_mem _ _ _)
      obtain ⟨i2, hi2lt, hi2⟩ := List.getElem_of_mem hps
      have hname_i2 : nodeName g i2 = x := by
        unfold nodeName
        rw [List.getD_eq_getElem g ([], []) hi2lt, hi2]
      have hidx_eq : (kahnResult g).get ⟨pre.length, hklt⟩ = i2 :=
        nodeName_inj g hn _ i2 hidx_lt hi2lt (by rw [hname_idx, hname_i2])
      have hdeps : depsAt g ((kahnResult g).get ⟨pre.length, hklt⟩) = ps := by
        rw [hidx_eq]
        unfold depsAt
        rw [List.getD_eq_getElem g ([], []) hi2lt, hi2]
      obtain ⟨j, hjfind, hjtake⟩ := hord pre.length hklt d (by rw [hdeps]; exact hd)
      obtain ⟨hjlt, hjname⟩ := findNodeIdx_some_name g d j hjfind
      have hpre : pre = (List.map (nodeName g) (kahnResult g)).take pre.length := by
        rw [horder]
        exact (List.take_left pre (x :: post)).symm
      rw [hpre, ← List.map_take, ← hjname]
      exact List.mem_map_of_mem _ hjtake

end Quarry

namespace Quarry

/-! ## Supporting lemmas: the validation folds -/

theorem validateStep_missing (lock : List DepEntry) (st : Bool × List Bytes) (d : DepEntry)
    (hf : findDep lock d.name = none) :
    validateStep lock st d = (false, st.2 ++ [missingMsg d.name]) := by
  unfold validateStep
  rw [hf]

theorem validateStep_mismatch (lock : List DepEntry) (st : Bool × List Bytes) (d l : DepEntry)
    (hf : findDep lock d.name = some l) (ht : d.type ≠ l.type) :
    validateStep lock st d = (false, st.2 ++ [mismatchMsg d.name]) := by
  unfold validateStep
  rw [hf]
  show (if d.type ≠ l.type then (false, st.2 ++ [mismatchMsg d.name]) else st) = _
  rw [if_pos ht]

theorem validateStep_match (lock : List DepEntry) (st : Bool × List Bytes) (d l : DepEntry)
    (hf : findDep lock d.name = some l) (ht : ¬d.type ≠ l.type) :
    validateStep lock st d = st := by
  unfold validateStep
  rw [hf]
  show (if d.type ≠ l.type then (false, st.2 ++ [mismatchMsg d.name]) else st) = _
  rw [if_neg ht]

theorem validate_errors_fold (lock : List DepEntry) :
    ∀ (toml : List DepEntry) (b : Bool) (es : List Bytes),
    ((toml.foldl (validateStep lock) (b, es)).2 =
      es ++ toml.filterMap (structuralErrorOf lock)) ∧
    ((toml.foldl (validateStep lock) (b, es)).1 = true ↔
      (b = true ∧ toml.filterMap (structuralErrorOf lock) = [])) := by
  intro toml
  induction toml with
  | nil => simp
  | cons d t ih =>
    intro b es
    rw [List.foldl_cons, List.filterMap_cons]
    cases hf : findDep lock d.name with
    | none =>
      have hse : structuralErrorOf lock d = some (missingMsg d.name) := by
        unfold structuralErrorOf
        rw [hf]
      rw [hse, validateStep_missing lock (b, es) d hf]
      obtain ⟨ih1, ih2⟩ := ih false (es ++ [missingMsg d.name])
      refine ⟨by rw [ih1, List.append_assoc]; rfl, ?_⟩
      rw [ih2]
      simp
    | some l =>
      by_cases ht : d.type ≠ l.type
      · have hse : structuralErrorOf lock d = some (mismatchMsg d.name) := by
          unfold structuralErrorOf
          rw [hf]
          show (if d.type ≠ l.type then some (mismatchMsg d.name) else none) = _
          rw [if_pos ht]
        rw [hse, validateStep_mismatch lock (b, es) d l hf ht]
        obtain ⟨ih1, ih2⟩ := ih false (es ++ [mismatchMsg d.name])
        refine ⟨by rw [ih1, List.append_assoc]; rfl, ?_⟩
        rw [ih2]
        simp
      · have hse : structuralErrorOf lock d = none := by
          unfold structuralErrorOf
          rw [hf]
          show (if d.type ≠ l.type then some (mismatchMsg d.name) else none) = _
          rw [if_neg ht]
        rw [hse, validateStep_match lock (b, es) d l hf ht]
        exact ih b es

theorem validate_warnings_fold (toml : List DepEntry) :
    ∀ (lock : List DepEntry) (ws : List Bytes),
    lock.foldl (warnStep toml) ws =
      ws ++ (lock.filter (fun l => (findDep toml l.name).isNone)).map (fun l => extraMsg l.name) := by
  intro lock
  induction lock with
  | nil => simp
  | cons l t ih =>
    intro ws
    rw [List.foldl_cons, List.filter_cons]
    by_cases hf : (findDep toml l.name).isNone
    · rw [show warnStep toml ws l = ws ++ [extraMsg l.name] by unfold warnStep; rw [if_pos hf],
        if_pos hf, ih, List.map_cons, List.append_assoc]
      rfl
    · rw [show warnStep toml ws l = ws by unfold warnStep; rw [if_neg hf],
        if_neg (by simpa using hf), ih]

end Quarry

namespace Quarry

/-! ## Concrete dependency sets used by the claim theorems -/

/-- A git dependency pinned to a branch, within the fields the lockfile
format supports. -/
def c1GitSet : List DepEntry :=
  [{ emptyDep with
      name := str "a"
      type := str "git"
      git_url := str "u"
      git_branch := str "main" }]

def scenario4z : DepEntry := { emptyDep with
  name := str "z"
  type := str "registry"
  version := str "1.0.0" }

def scenario4a : DepEntry := { emptyDep with
  name := str "a"
  type := str "registry"
  version := str "2.0.0" }

/-- A registry dependency with a lowercase `sha256:` checksum prefix. -/
def c10Lower : List DepEntry :=
  [{ emptyDep with
      name := str "a"
      type := str "registry"
      version := str "1.0.0"
      checksum := str "sha256:AB" }]

/-- The same dependency with the prefix upper-cased. -/
def c10Upper : List DepEntry :=
  [{ emptyDep with
      name := str "a"
      type := str "registry"
      version := str "1.0.0"
      checksum := str "SHA256:AB" }]

/-! ## Claim theorems -/

/-- C1: `decode(encode(S))` does not reproduce the fields of `S`.  For a
set with one git dependency carrying a branch, the decoder
(`parse_toml_dependencies`) returns a different set: every decoded entry
has an empty `git_branch` (the branch is dropped; the decoder also invents
extra entries by re-scanning the inline table's interior). -/
theorem lockfile_roundtrip_drops_git_branch :
    parseTomlDependencies (generateLockfile c1GitSet) ≠ c1GitSet ∧
    ∀ e ∈ parseTomlDependencies (generateLockfile c1GitSet), e.git_branch = [] := by
  decide

/-- C2: evaluation of `version_satisfies_c` at the claim's inputs.  The
code builds the `~>` prefix from only the first dot-separated component
(`"1."` for `~>1.0`), so `satisfies("1.5.0", "~>1.0")` is true, where the
specification requires false; `"1.0"` (which does not start with `"1.0."`)
is also accepted. -/
theorem versionSatisfies_pessimistic_eval :
    versionSatisfies (str "1.5.0") (str "~>1.0") = true ∧
    versionSatisfies (str "1.0.9") (str "~>1.0") = true ∧
    versionSatisfies (str "1.0") (str "~>1.0") = true := by
  decide

/-- C3: evaluation at the claim's acyclic edge map `{"a": ["b"]}` with no
key `"b"`.  The DFS cycle check reports no cycle, yet `topological_sort_c`
fails, because the in-degree of `"a"` counts the non-key dependency `"b"`,
which is never decremented. -/
theorem topologicalSort_nonkey_dep_fails :
    topologicalSort [(str "a", [str "b"])] = none ∧
    hasCycleGraph [(str "a", [str "b"])] = false := by
  decide

/-- C4: `compute_resolution_fingerprint_c` always yields a 64-byte
lowercase-hex string; permuting a dependency set with distinct names
leaves the canonical serialization, and hence the fingerprint,
byte-identical; and the canonical form of `{z: 1.0.0, a: 2.0.0}` lists
`"a"` before `"z"`. -/
theorem fingerprint_format_and_determinism :
    (∀ S : List DepEntry, (computeResolutionFingerprint S).length = 64 ∧
      ∀ b ∈ computeResolutionFingerprint S, b ∈ hexDigits) ∧
    (∀ S1 S2 : List DepEntry, S1.Perm S2 → (S1.map (fun d => d.name)).Nodup →
      normalizeDependencySet S1 = normalizeDependencySet S2 ∧
      computeResolutionFingerprint S1 = computeResolutionFingerprint S2) ∧
    normalizeDependencySet [scenario4z, scenario4a] =
      str "\x7b\x22a\x22:\x7b\x22type\x22:\x22registry\x22,\x22version\x22:\x222.0.0\x22\x7d,\x22z\x22:\x7b\x22type\x22:\x22registry\x22,\x22version\x22:\x221.0.0\x22\x7d\x7d" := by
  refine ⟨fun S => ⟨fingerprint_length S, fun b hb => mem_bytesToHex _ b hb⟩, ?_, by decide⟩
  intro S1 S2 hp hn
  have hnds := normalizeDependencySet_perm S1 S2 hp hn
  refine ⟨hnds, ?_⟩
  unfold computeResolutionFingerprint
  rw [hnds]

/-- Witness for C4: the two orderings of the scenario-4 set canonicalize
and fingerprint identically. -/
theorem fingerprint_format_and_determinism_witness :
    normalizeDependencySet [scenario4z, scenario4a] =
      normalizeDependencySet [scenario4a, scenario4z] ∧
    computeResolutionFingerprint [scenario4z, scenario4a] =
      computeResolutionFingerprint [scenario4a, scenario4z] :=
  fingerprint_format_and_determinism.2.1 [scenario4z, scenario4a] [scenario4a, scenario4z]
    (by decide) (by decide)

/-- C5 (counterexample): for the dotless constraint `~>1`, the candidate
`1.2.3` satisfies the constraint per `version_satisfies_c`, yet
`version_select_c` returns none — so select does not filter by the same
satisfaction predicate. -/
theorem versionSelect_dotless_counterexample :
    versionSelect (str "~>1") [str "1.2.3"] = none ∧
    versionSatisfies (str "1.2.3") (str "~>1") = true := by
  decide

/-- Witness for C5: at `~>1.0` over three candidates, the selected
`1.0.10` passes the filter and dominates every filtered candidate. -/
theorem versionSelect_characterization_witness :
    str "1.0.10" ∈ List.filter (selectMatches (str "~>1.0"))
      [str "1.0.2", str "1.5.0", str "1.0.10"] ∧
    ∀ w ∈ List.filter (selectMatches (str "~>1.0"))
      [str "1.0.2", str "1.5.0", str "1.0.10"],
      versionCompare w (str "1.0.10") ≤ 0 :=
  (versionSelect_characterization (str "~>1.0")
    [str "1.0.2", str "1.5.0", str "1.0.10"]).2 (str "1.0.10") (by decide)

/-- C6: whenever `topological_sort_c` succeeds on an edge map with
distinct keys, the order lists every key exactly once (a permutation of
the keys) and every node appears after all of its dependencies that are
keys; and `{"a": ["b"], "b": []}` yields exactly `["b", "a"]`. -/
theorem topologicalSort_valid_order :
    (∀ (g : GraphC) (order : List Bytes),
      (g.map Prod.fst).Nodup → topologicalSort g = some order →
      order.Perm (g.map Prod.fst) ∧
      (∀ pre x post, order = pre ++ x :: post →
        ∀ ps, (x, ps) ∈ g → ∀ d ∈ ps, d ∈ g.map Prod.fst → d ∈ pre)) ∧
    topologicalSort [(str "a", [str "b"]), (str "b", [])] = some [str "b", str "a"] :=
  ⟨fun g order hn hs => topologicalSort_some_spec g order hn hs, by decide⟩

/-- Witness for C6: instantiating the validity statement at the scenario
graph. -/
theorem topologicalSort_valid_order_witness :
    ([str "b", str "a"] : List Bytes).Perm
      (([(str "a", [str "b"]), (str "b", [])] : GraphC).map Prod.fst) :=
  (topologicalSort_valid_order.1 [(str "a", [str "b"]), (str "b", [])]
    [str "b", str "a"] (by decide) (by decide)).1

/-- C7: `parse_dependency_source_c` classifies an object by key presence
in the precedence git, then path, then version; an object with none of
those keys parses to the explicit invalid marker; and the branch/tag/rev
priority retains the branch in the scenario-3 input. -/
theorem parseDependencySource_classification :
    (∀ (nm : Bytes) (fields : List (Bytes × Bytes)),
      ((lookupField fields (str "git")).isSome = true →
        ∃ b c, parseDependencySource nm (.table fields) =
          .git (fieldOrEmpty fields (str "git")) b c) ∧
      ((lookupField fields (str "git")).isSome = false →
        (lookupField fields (str "path")).isSome = true →
        ∃ h, parseDependencySource nm (.table fields) =
          .path (fieldOrEmpty fields (str "path")) h) ∧
      ((lookupField fields (str "git")).isSome = false →
        (lookupField fields (str "path")).isSome = false →
        (lookupField fields (str "version")).isSome = true →
        ∃ c, parseDependencySource nm (.table fields) =
          .registry (fieldOrEmpty fields (str "version")) c) ∧
      ((lookupField fields (str "git")).isSome = false →
        (lookupField fields (str "path")).isSome = false →
        (lookupField fields (str "version")).isSome = false →
        parseDependencySource nm (.table fields) = .invalid)) ∧
    parseDependencySource (str "dep")
      (.table [(str "git", str "https://x/repo"), (str "branch", str "main"),
        (str "tag", str "v1")])
      = .git (str "https://x/repo") (some (str "main")) none := by
  refine ⟨?_, by decide⟩
  intro nm fields
  refine ⟨?_, ?_, ?_, ?_⟩
  · intro hg
    simp only [parseDependencySource]
    rw [if_pos hg]
    exact ⟨_, _, rfl⟩
  · intro hg hp
    simp only [parseDependencySource]
    rw [if_neg (by simp [hg]), if_pos hp]
    exact ⟨_, rfl⟩
  · intro hg hp hv
    simp only [parseDependencySource]
    rw [if_neg (by simp [hg]), if_neg (by simp [hp]), if_pos hv]
    exact ⟨_, rfl⟩
  · intro hg hp hv
    simp only [parseDependencySource]
    rw [if_neg (by simp [hg]), if_neg (by simp [hp]), if_neg (by simp [hv])]

/-- Witness for C7: a table with only a git key parses to the git variant;
a table with none of the three keys parses to invalid. -/
theorem parseDependencySource_classification_witness :
    (∃ b c, parseDependencySource (str "d") (.table [(str "git", str "u")]) =
      .git (fieldOrEmpty [(str "git", str "u")] (str "git")) b c) ∧
    parseDependencySource (str "d") (.table [(str "x", str "y")]) = .invalid :=
  ⟨(parseDependencySource_classification.1 (str "d") [(str "git", str "u")]).1 (by decide),
   (parseDependencySource_classification.1 (str "d") [(str "x", str "y")]).2.2.2
     (by decide) (by decide) (by decide)⟩

/-- C8: `validate_locked_deps_c` produces exactly one error per manifest
dependency that is missing from the lock or locked under a different type
tag (and none for matching entries), exactly one warning per lock
dependency absent from the manifest, and its valid flag is true iff the
error list is empty. -/
theorem validateLockedDeps_characterization :
    ∀ toml lock : List DepEntry,
    (validateLockedDeps toml lock).errors = toml.filterMap (structuralErrorOf lock) ∧
    (validateLockedDeps toml lock).warnings =
      (lock.filter (fun l => (findDep toml l.name).isNone)).map (fun l => extraMsg l.name) ∧
    ((validateLockedDeps toml lock).valid = true ↔
      (validateLockedDeps toml lock).errors = []) := by
  intro toml lock
  obtain ⟨h1, h2⟩ := validate_errors_fold lock toml true []
  have h3 := validate_warnings_fold toml lock []
  have he : (validateLockedDeps toml lock).errors =
      (toml.foldl (validateStep lock) (true, [])).2 := rfl
  have hw : (validateLockedDeps toml lock).warnings = lock.foldl (warnStep toml) [] := rfl
  have hv : (validateLockedDeps toml lock).valid =
      (toml.foldl (validateStep lock) (true, [])).1 := rfl
  rw [he, hw, hv, h1, h3]
  refine ⟨by simp, by simp, ?_⟩
  rw [h2]
  simp

/-- C9: `normalize_dep_entry` is idempotent, and consequently the
canonical serialization of a normalized set equals that of the original
set (`normalize_dependency_set_c` itself normalizes, sorts and
serializes). -/
theorem normalize_idempotent :
    (∀ d : DepEntry, normalizeDepEntry (normalizeDepEntry d) = normalizeDepEntry d) ∧
    (∀ S : List DepEntry,
      normalizeDependencySet (S.map normalizeDepEntry) = normalizeDependencySet S) :=
  ⟨normalizeDepEntry_idem, normalizeDependencySet_normalize⟩

set_option maxRecDepth 8000 in
/-- C10: the checksum/hash lowering of `normalize_dep_entry` fires only on
the exact lowercase prefix `sha256:` — an upper-cased prefix leaves the
value untouched — and after the prefix it lowers exactly the bytes
`A`–`F`; hence two sets whose checksums differ only in the prefix casing
canonicalize to different bytes and get different fingerprints. -/
theorem checksum_prefix_case_sensitive :
    (∀ d : DepEntry, startsWithB d.checksum (str "sha256:") = false →
      (normalizeDepEntry d).checksum = d.checksum) ∧
    (∀ t : Bytes, normHashVal (str "sha256:" ++ t) = str "sha256:" ++ t.map lowerHexByte) ∧
    (∀ t : Bytes, normHashVal (str "SHA256:" ++ t) = str "SHA256:" ++ t) ∧
    normalizeDependencySet c10Lower ≠ normalizeDependencySet c10Upper ∧
    computeResolutionFingerprint c10Lower ≠ computeResolutionFingerprint c10Upper := by
  refine ⟨?_, normHashVal_sha256_append, ?_, by decide, by decide⟩
  · intro d h
    show normHashVal d.checksum = d.checksum
    exact normHashVal_not_sha256 d.checksum h
  · intro t
    exact normHashVal_not_sha256 _ rfl

/-- Witness for C10: the upper-cased prefix value passes through
normalization unchanged. -/
theorem checksum_prefix_case_sensitive_witness :
    (normalizeDepEntry { emptyDep with checksum := str "SHA256:AB" }).checksum =
      ({ emptyDep with checksum := str "SHA256:AB" } : DepEntry).checksum :=
  checksum_prefix_case_sensitive.1 { emptyDep with checksum := str "SHA256:AB" } (by decide)

end Quarry
